import Mathlib

/-!
Shallow embedding of the OCR table-reconstruction engine of
`src/inventory_ocr.py` (class `InventoryOCR`), together with proofs about the
claims of the specification.

Modelling conventions:
* Python floats are modelled as exact rationals (`ℚ`).  All numeric values in
  the program stay far away from the precision limits of IEEE doubles, so the
  arithmetic on the values the program manipulates coincides with rational
  arithmetic.
* The arithmetic operations used inside executable definitions are written
  with `mkRat`-based helpers (`qAdd`, `qSub`, `qDivNat`) because the library
  operations on `Rat` are `@[irreducible]` and do not evaluate inside
  `decide`; the helpers are proved equal to the library operations below.
* Text is modelled as `List Char`.  Python regular expressions are Unicode
  aware; the character classes are modelled on the repertoire that actually
  occurs in the data (ASCII plus CJK ideographs), see `isWordChar`.
* The external OCR call (`process_image`) and image decoding (`cv2.imread`)
  are collaborators: the model takes the token list and an optional decoded
  image directly.  The image is modelled in HSV space, the form in which
  `_get_color_sign` inspects it after `cv2.cvtColor`.
-/

namespace InventoryOCR

/-! ### Kernel-computable rational helpers -/

/-- Addition on `ℚ` written with `mkRat` so that it evaluates by kernel
reduction (the library `Rat.add` is `@[irreducible]`).  Proved equal to `+`
in `qAdd_eq`. -/
def qAdd (a b : ℚ) : ℚ := mkRat (a.num * b.den + b.num * a.den) (a.den * b.den)

/-- Subtraction on `ℚ` written with `mkRat`; proved equal to `-` in
`qSub_eq`. -/
def qSub (a b : ℚ) : ℚ := mkRat (a.num * b.den - b.num * a.den) (a.den * b.den)

/-- Division of a rational by a natural number, written with `mkRat`; proved
equal to `a / n` in `qDivNat_eq`.  (Division by zero yields `0`; the model
only divides by the length of a nonempty list.) -/
def qDivNat (a : ℚ) (n : ℕ) : ℚ := mkRat a.num (a.den * n)

/-- Sum of a list of rationals, as Python `sum` (left fold from `0`). -/
def qSum (l : List ℚ) : ℚ := l.foldl qAdd 0

/-- Python `int()` applied to a float: truncation toward zero. -/
def pyInt (q : ℚ) : ℤ := q.num.tdiv q.den

theorem qAdd_eq (a b : ℚ) : qAdd a b = a + b := (Rat.add_def' a b).symm

theorem qSub_eq (a b : ℚ) : qSub a b = a - b := (Rat.sub_def' a b).symm

theorem qDivNat_eq (a : ℚ) (n : ℕ) : qDivNat a n = a / n := by
  rw [qDivNat, Rat.mkRat_eq_div]
  push_cast
  conv_rhs => rw [← Rat.num_div_den a]
  rw [div_div]

theorem qSum_eq (l : List ℚ) : qSum l = l.sum := by
  have h : ∀ (l : List ℚ) (a : ℚ), l.foldl qAdd a = a + l.sum := by
    intro l
    induction l with
    | nil => intro a; simp
    | cons x xs ih =>
      intro a
      simp only [List.foldl_cons, List.sum_cons, ih, qAdd_eq]
      ring
  rw [qSum, h, zero_add]

/-! ### Character classes and text scanning -/

/-- Word characters for the purposes of `\b` in the Python regexes.  Python
`\w` is Unicode-aware; the token texts this program sees consist of ASCII
letters, digits, underscore and CJK ideographs, so the model covers exactly
those (CJK unified ideographs are `\w` characters in Python). -/
def isWordChar (c : Char) : Bool :=
  c.isAlphanum || c == '_' ||
    (decide (0x4E00 ≤ c.toNat) && decide (c.toNat ≤ 0x9FFF))

/-- Whitespace for Python `str.strip()` and `\s` (ASCII whitespace plus the
ideographic space, the whitespace characters that occur in OCR text). -/
def isPySpace (c : Char) : Bool :=
  c == ' ' || c == '\t' || c == '\n' || c == '\r' || c == '\x0b' ||
    c == '\x0c' || c == '　'

/-- Maximal runs of word characters, accumulated left to right.  `acc` holds
the current run in reverse. -/
def wordRunsAux : List Char → List Char → List (List Char)
  | acc, [] => if acc.isEmpty then [] else [acc.reverse]
  | acc, c :: cs =>
    if isWordChar c then wordRunsAux (c :: acc) cs
    else if acc.isEmpty then wordRunsAux [] cs
    else acc.reverse :: wordRunsAux [] cs

/-- Splits a string into its maximal runs of word characters. -/
def wordRuns (s : List Char) : List (List Char) := wordRunsAux [] s

/-- The instrument-code grammar of `re.compile(r'\b(\d{4}|\d{6})\b')`:
exactly 4 or exactly 6 digits. -/
def isSymbolRun (r : List Char) : Bool :=
  (r.length == 4 || r.length == 6) && r.all Char.isDigit

/-- Semantics of `symbol_pattern.findall(row_str)` for the pattern
`\b(\d{4}|\d{6})\b`.  A match must start and end at a word boundary, so every
match is a maximal run of word characters that consists of exactly 4 or
exactly 6 digits (a 4-digit prefix of a longer run is rejected by the closing
`\b`, and no match can start inside a run).  `findall` therefore returns, in
scan order, the maximal word runs satisfying the grammar. -/
def symFindall (s : List Char) : List (List Char) :=
  (wordRuns s).filter isSymbolRun

/-- Python substring test `needle in hay`. -/
def containsSub (needle : List Char) : List Char → Bool
  | [] => needle.isEmpty
  | c :: cs => needle.isPrefixOf (c :: cs) || containsSub needle cs

/-- Python `hay.replace(needle, '')` for a nonempty needle: removes all
leftmost non-overlapping occurrences.  The fuel argument only bounds the
number of steps (each step strictly shortens the list, so fuel equal to the
initial length never runs out); it makes the recursion structural so the
definition evaluates by kernel reduction. -/
def removeAllFuel (needle : List Char) : ℕ → List Char → List Char
  | 0, l => l
  | _ + 1, [] => []
  | fuel + 1, c :: cs =>
    if needle.isPrefixOf (c :: cs) then removeAllFuel needle fuel ((c :: cs).drop needle.length)
    else c :: removeAllFuel needle fuel cs

/-- Python `hay.replace(needle, '')`.  (The program only calls this with the
4- or 6-digit symbol as needle, which is never empty.) -/
def removeAll (needle hay : List Char) : List Char :=
  match needle with
  | [] => hay
  | _ :: _ => removeAllFuel needle hay.length hay

/-- Strips characters satisfying `p` from both ends of a list. -/
def stripWhile (p : Char → Bool) (l : List Char) : List Char :=
  ((l.dropWhile p).reverse.dropWhile p).reverse

/-- Python `txt.strip()` (no arguments): strips whitespace. -/
def pyStrip (l : List Char) : List Char := stripWhile isPySpace l

/-- Python `txt.strip('|[]【】() ')`: strips those characters from both
ends. -/
def stripMarks (l : List Char) : List Char :=
  stripWhile (fun c => ['|', '[', ']', '【', '】', '(', ')', ' '].contains c) l

/-- Semantics of `re.sub(r'(現股|現\s?股|融資|融券|代銷)', '', txt)`: removes
every leftmost occurrence of one of the transaction-type tags, trying the
alternatives in order at each position. -/
def stripTags : List Char → List Char
  | [] => []
  | '現' :: '股' :: rest => stripTags rest
  | '現' :: c :: '股' :: rest =>
    if isPySpace c then stripTags rest
    else '現' :: stripTags (c :: '股' :: rest)
  | '融' :: '資' :: rest => stripTags rest
  | '融' :: '券' :: rest => stripTags rest
  | '代' :: '銷' :: rest => stripTags rest
  | c :: rest => c :: stripTags rest

/-- Numeric value of a digit string (most significant digit first). -/
def digitsToNat (l : List Char) : ℕ :=
  l.foldl (fun a c => 10 * a + (c.toNat - 48)) 0

/-- Value of one maximal match of `-?\d+\.?\d*` (after `float(...)`):
optional sign, integer part, optional dot and fractional part. -/
def parseNum (t : List Char) : ℚ :=
  match t with
  | '-' :: rest => -(parseNumAbs rest)
  | _ => parseNumAbs t
where
  /-- Unsigned part of `parseNum`. -/
  parseNumAbs (t : List Char) : ℚ :=
    let ip := t.takeWhile Char.isDigit
    match t.dropWhile Char.isDigit with
    | '.' :: fs =>
      qAdd (mkRat (digitsToNat ip) 1)
        (mkRat (digitsToNat (fs.takeWhile Char.isDigit)) (10 ^ (fs.takeWhile Char.isDigit).length))
    | _ => mkRat (digitsToNat ip) 1

/-- Semantics of `re.findall(r'-?\d+\.?\d*', t)`: scans left to right; at a
digit it takes the maximal digit run, an optional dot, and the maximal
following digit run; a `-` is consumed only when immediately followed by a
digit; matching resumes after each match.  The fuel argument only bounds the
number of steps (each step strictly shortens the list, so fuel equal to the
initial length never runs out); it makes the recursion structural so the
definition evaluates by kernel reduction. -/
def numTokensFuel : ℕ → List Char → List (List Char)
  | 0, _ => []
  | _ + 1, [] => []
  | fuel + 1, c :: cs =>
    if c.isDigit then
      match (c :: cs).dropWhile Char.isDigit with
      | '.' :: rest1 =>
        ((c :: cs).takeWhile Char.isDigit ++ '.' :: rest1.takeWhile Char.isDigit)
          :: numTokensFuel fuel (rest1.dropWhile Char.isDigit)
      | rest =>
        ((c :: cs).takeWhile Char.isDigit) :: numTokensFuel fuel rest
    else if c == '-' && (cs.headD ' ').isDigit then
      match cs.dropWhile Char.isDigit with
      | '.' :: rest1 =>
        ('-' :: (cs.takeWhile Char.isDigit ++ '.' :: rest1.takeWhile Char.isDigit))
          :: numTokensFuel fuel (rest1.dropWhile Char.isDigit)
      | rest =>
        ('-' :: cs.takeWhile Char.isDigit) :: numTokensFuel fuel rest
    else numTokensFuel fuel cs

/-- Semantics of `re.findall(r'-?\d+\.?\d*', t)`. -/
def numTokens (s : List Char) : List (List Char) := numTokensFuel s.length s

/-! ### Data model -/

/-- One vertex of a bounding polygon (`{"x": v.x, "y": v.y}`). -/
structure Vertex where
  x : ℚ
  y : ℚ
deriving DecidableEq

/-- One OCR token as produced by `process_image`: text, center coordinates
and bounding polygon. -/
structure Item where
  text : List Char
  x : ℚ
  y : ℚ
  vertices : List Vertex
deriving DecidableEq

/-- The header anchor map (`anchors` dict in `extract_stock_info`). -/
structure Anchors where
  symbol : Option ℚ
  quantity : Option ℚ
  profit : Option ℚ
  price : Option ℚ
deriving DecidableEq

/-- One numeric candidate (`val_candidates` entries): value, the source
token's x position and its bounding polygon. -/
structure Cand where
  val : ℚ
  x : ℚ
  vertices : List Vertex
deriving DecidableEq

/-- One emitted record (the dict appended to `results`). -/
structure InventoryRecord where
  symbol : List Char
  name : List Char
  quantity : ℤ
  avg_price : ℚ
  profit : ℤ
deriving DecidableEq

/-- The placeholder name `"未知標的"`. -/
def unknownName : List Char := ['未', '知', '標', '的']

/-! ### Row clustering (`extract_stock_info`, lines 171-184) -/

/-- Vertical order on tokens (`key=lambda i: i['y']`). -/
def yle (a b : Item) : Prop := a.y ≤ b.y

instance : DecidableRel yle := fun a b => inferInstanceAs (Decidable (a.y ≤ b.y))

instance : IsTotal Item yle := ⟨fun a b => le_total a.y b.y⟩

instance : IsTrans Item yle := ⟨fun _ _ _ h1 h2 => le_trans h1 h2⟩

/-- Horizontal order on tokens (`key=lambda r: r['x']`). -/
def xle (a b : Item) : Prop := a.x ≤ b.x

instance : DecidableRel xle := fun a b => inferInstanceAs (Decidable (a.x ≤ b.x))

instance : IsTotal Item xle := ⟨fun a b => le_total a.x b.x⟩

instance : IsTrans Item xle := ⟨fun _ _ _ h1 h2 => le_trans h1 h2⟩

/-- Python's stable sort by `y` (`items.sort(key=lambda i: i['y'])`);
insertion sort by a non-strict key order is stable, hence extensionally the
same list as Python's Timsort produces. -/
def sortY (items : List Item) : List Item := List.insertionSort yle items

/-- Python's stable sort by `x` (`sorted(current_row, key=lambda r: r['x'])`). -/
def sortX (row : List Item) : List Item := List.insertionSort xle row

/-- Running mean of the `y` coordinates of the current row
(`sum([it['y'] for it in current_row]) / len(current_row)`). -/
def avgY (row : List Item) : ℚ := qDivNat (qSum (row.map (·.y))) row.length

/-- The row-building loop: a token joins the current row when its `y` is
within 25 of the row's running mean, otherwise the current row is closed
(sorted by `x`) and a new row starts; the final row is closed at the end. -/
def clusterGo (cur : List Item) : List Item → List (List Item)
  | [] => [sortX cur]
  | i :: rest =>
    if |qSub i.y (avgY cur)| < 25 then clusterGo (cur ++ [i]) rest
    else sortX cur :: clusterGo [i] rest

/-- Row clustering of `extract_stock_info`: sort by `y`, then group by the
running-mean rule with tolerance 25. -/
def clusterRows (items : List Item) : List (List Item) :=
  match sortY items with
  | [] => []
  | i :: rest => clusterGo [i] rest

/-! ### Anchor detection (`extract_stock_info`, lines 186-203) -/

/-- Substring test of any keyword (`any(k in txt for k in [...])`). -/
def containsAny (keys : List (List Char)) (t : List Char) : Bool :=
  keys.any (fun k => containsSub k t)

/-- Header keywords for the symbol column. -/
def symbolKeys : List (List Char) := ["代碼".toList, "名稱".toList, "標的".toList]

/-- Header keywords for the quantity column. -/
def quantityKeys : List (List Char) :=
  ["即時庫存".toList, "庫存".toList, "股數".toList, "量".toList]

/-- Header keywords for the profit column. -/
def profitKeys : List (List Char) := ["損益".toList, "試算".toList, "原幣損益".toList]

/-- Header keywords for the price column. -/
def priceKeys : List (List Char) :=
  ["付出成本".toList, "成本均價".toList, "成本".toList, "均價".toList]

/-- Processing of one token by the header scan: each keyword family
independently overwrites its anchor with the token's `x`. -/
def updateAnchors (a : Anchors) (it : Item) : Anchors :=
  let a1 := if containsAny symbolKeys it.text then { a with symbol := some it.x } else a
  let a2 := if containsAny quantityKeys it.text then { a1 with quantity := some it.x } else a1
  let a3 := if containsAny profitKeys it.text then { a2 with profit := some it.x } else a2
  if containsAny priceKeys it.text then { a3 with price := some it.x } else a3

/-- Header scan over the first 8 rows (`for row in rows[:8]: for it in row`):
later matches overwrite earlier ones. -/
def detectAnchors (rows : List (List Item)) : Anchors :=
  ((rows.take 8).flatten).foldl updateAnchors ⟨none, none, none, none⟩

/-! ### Per-row symbol, name and numeric candidates
(`extract_stock_info`, lines 205-248) -/

/-- The row string `" ".join([it['text'] for it in row]).upper()`.  Python
`str.upper` uppercases ASCII letters and leaves digits and CJK text
unchanged. -/
def rowString (row : List Item) : List Char :=
  (((row.map (·.text)).intersperse [' ']).flatten).map Char.toUpper

/-- All instrument-code matches of the row string
(`symbol_pattern.findall(row_str)`). -/
def rowSymbols (row : List Item) : List (List Char) := symFindall (rowString row)

/-- The selected symbol (`symbols[0]`) together with the first token whose
text contains it (`next((it for it in row if symbol in it['text']), None)`);
`none` when the row has no symbol match or no containing token. -/
def rowSymItem (row : List Item) : Option (List Char × Item) :=
  match rowSymbols row with
  | [] => none
  | sym :: _ =>
    match row.find? (fun it => containsSub sym it.text) with
    | none => none
    | some it => some (sym, it)

/-- Name assembly (lines 218-230): for every token at `x < s_item.x + 10`,
remove the symbol substring, strip whitespace, remove transaction-type tags,
strip the bracket/pipe characters, and keep the fragment when nonempty; the
fragments are concatenated and stripped. -/
def extractName (sym : List Char) (sItem : Item) (row : List Item) : List Char :=
  pyStrip ((row.filterMap (fun it =>
    if it.x < qAdd sItem.x 10 then
      let t1 := pyStrip (removeAll sym it.text)
      let t2 := stripTags t1
      let t3 := stripMarks t2
      if t3.isEmpty then none else some t3
    else none)).flatten)

/-- Numeric candidates (lines 232-248): for every token strictly right of
`s_item.x + 5`, the numeric substrings of its comma-stripped text, excluding
a value that reproduces the symbol with the same string length. -/
def rowCandidates (sym : List Char) (sItem : Item) (row : List Item) : List Cand :=
  (row.map (fun it =>
    if qAdd sItem.x 5 < it.x then
      (numTokens (it.text.filter (fun c => c ≠ ','))).filterMap (fun n =>
        let v := parseNum n
        if v = parseNum sym ∧ n.length = sym.length then none
        else some ⟨v, it.x, it.vertices⟩)
    else [])).flatten

/-! ### Field assignment (`extract_stock_info`, lines 250-290) -/

/-- Python `min(val_candidates, key=...)`: the first element attaining the
minimal key (later elements replace the current best only on a strictly
smaller key). -/
def argminBy (key : Cand → ℚ) : Cand → List Cand → Cand
  | best, [] => best
  | best, c :: cs =>
    if key c < key best then argminBy key c cs else argminBy key best cs

/-- Quantity assignment (lines 256-262): nearest candidate to the quantity
anchor when one exists, else the first candidate; `int(...)` truncation. -/
def assignQuantity (an : Anchors) : List Cand → ℤ
  | [] => 0
  | c0 :: rest =>
    match an.quantity with
    | some ax => pyInt ((argminBy (fun c => |qSub c.x ax|) c0 rest).val)
    | none => pyInt c0.val

/-- Profit fallback (lines 272-279): walking the reversed candidate list,
the first integer-valued candidate is taken; a green (`-1`) color sign
forces the magnitude negative, any other sign leaves the parsed value. -/
def profitFallback (sgn : List Vertex → ℤ) : List Cand → ℤ
  | [] => 0
  | c :: rest =>
    if c.val.den = 1 then
      let p := pyInt c.val
      if sgn c.vertices = -1 then -|p| else p
    else profitFallback sgn rest

/-- Profit assignment (lines 264-279): nearest candidate to the profit
anchor when one exists, with both color-sign corrections applied in
sequence; else the reversed-scan fallback. -/
def assignProfit (sgn : List Vertex → ℤ) (an : Anchors) : List Cand → ℤ
  | [] => 0
  | c0 :: rest =>
    match an.profit with
    | some ax =>
      let m := argminBy (fun c => |qSub c.x ax|) c0 rest
      let p1 := pyInt m.val
      let p2 := if sgn m.vertices = -1 then -|p1| else p1
      if sgn m.vertices = 1 then |p2| else p2
    | none => profitFallback sgn (c0 :: rest).reverse

/-- Representation test `'.' in str(c['val'])` on a Python float: the
decimal representation of a finite float contains a dot exactly when the
value is zero or its magnitude lies in `[1e-4, 1e16)` (outside that range
`str` switches to exponent notation). -/
def hasDotRepr (q : ℚ) : Bool :=
  q = 0 ∨ (mkRat 1 10000 ≤ |q| ∧ |q| < (10 : ℚ) ^ (16 : ℕ))

/-- Price fallback loop (lines 286-290): each candidate differing from both
quantity and profit by more than `0.01` overwrites `avg_price`, and the loop
stops at the first such candidate whose float representation contains a
dot. -/
def priceGo (q p : ℤ) : List Cand → ℚ → ℚ
  | [], acc => acc
  | c :: rest, acc =>
    if mkRat 1 100 < |qSub c.val (mkRat q 1)| ∧ mkRat 1 100 < |qSub c.val (mkRat p 1)| then
      if hasDotRepr c.val then c.val else priceGo q p rest c.val
    else priceGo q p rest acc

/-- Price assignment (lines 281-290): nearest candidate to the price anchor
when one exists, else the fallback loop seeded with `0.0`. -/
def assignPrice (an : Anchors) (cands : List Cand) (q p : ℤ) : ℚ :=
  match cands with
  | [] => 0
  | c0 :: rest =>
    match an.price with
    | some ax => (argminBy (fun c => |qSub c.x ax|) c0 rest).val
    | none => priceGo q p (c0 :: rest) 0

/-! ### Row processing and assembly (`extract_stock_info`, lines 205-301) -/

/-- Processing of one clustered row: locate the symbol and its token, build
the name, collect numeric candidates, assign the three fields, and emit the
record (quantity emitted as `abs(quantity)`, empty name replaced by
`"未知標的"`).  Rows without a symbol match yield `none` (`continue`). -/
def processRow (sgn : List Vertex → ℤ) (an : Anchors) (row : List Item) :
    Option InventoryRecord :=
  match rowSymItem row with
  | none => none
  | some (sym, sItem) =>
    let name := extractName sym sItem row
    let cands := rowCandidates sym sItem row
    let q := assignQuantity an cands
    let p := assignProfit sgn an cands
    some { symbol := sym
           name := if name.isEmpty then unknownName else name
           quantity := |q|
           avg_price := assignPrice an cands q p
           profit := p }

/-- The whole extraction pipeline on a token list, parameterised by the
color-sign function (the only way the decoded image is consulted): cluster
the rows, detect the anchors on them, then process every row, dropping the
rows that yield no record. -/
def extractCore (sgn : List Vertex → ℤ) (items : List Item) : List InventoryRecord :=
  (clusterRows items).filterMap (processRow sgn (detectAnchors (clusterRows items)))

/-! ### Color-sign detection (`_get_color_sign`, lines 127-159)

The image is modelled as rows of HSV pixels, the form in which the function
inspects it after `cv2.cvtColor(roi, cv2.COLOR_BGR2HSV)`; the conversion is
a per-pixel bijection performed by the library, so the masks are expressed
directly by the HSV ranges of the source. -/

/-- One pixel in HSV space. -/
structure HSVPixel where
  h : ℕ
  s : ℕ
  v : ℕ
deriving DecidableEq

/-- A decoded image: a rectangular list of pixel rows. -/
abbrev HSVImage := List (List HSVPixel)

/-- Membership in the first red range `[0,50,50]..[10,255,255]`
(`cv2.inRange` bounds are inclusive). -/
def inRed1 (p : HSVPixel) : Bool :=
  p.h ≤ 10 && 50 ≤ p.s && p.s ≤ 255 && 50 ≤ p.v && p.v ≤ 255

/-- Membership in the second red range `[160,50,50]..[180,255,255]`. -/
def inRed2 (p : HSVPixel) : Bool :=
  160 ≤ p.h && p.h ≤ 180 && 50 ≤ p.s && p.s ≤ 255 && 50 ≤ p.v && p.v ≤ 255

/-- Membership in the green range `[35,40,40]..[90,255,255]`. -/
def inGreen (p : HSVPixel) : Bool :=
  35 ≤ p.h && p.h ≤ 90 && 40 ≤ p.s && p.s ≤ 255 && 40 ≤ p.v && p.v ≤ 255

/-- The cropped region of interest: bounding box of the polygon with a
1-pixel margin, clamped to the image (`roi = cv_img[max(0,min_y-1):min(h,max_y+1),
max(0,min_x-1):min(w,max_x+1)]`), flattened to its pixels.  Vertex
coordinates are assumed non-negative, as delivered by the Vision API.
Empty polygons yield no pixels (`min()` on an empty sequence raises, and
the bare `except` turns that into the neutral result). -/
def roiPixels (img : HSVImage) : List Vertex → List HSVPixel
  | [] => []
  | v0 :: vs =>
    let minX := pyInt (vs.foldl (fun m w => min m w.x) v0.x)
    let maxX := pyInt (vs.foldl (fun m w => max m w.x) v0.x)
    let minY := pyInt (vs.foldl (fun m w => min m w.y) v0.y)
    let maxY := pyInt (vs.foldl (fun m w => max m w.y) v0.y)
    let h : ℤ := img.length
    let w : ℤ := (img.headD []).length
    let r0 := (max 0 (minY - 1)).toNat
    let r1 := (min h (maxY + 1)).toNat
    let c0 := (max 0 (minX - 1)).toNat
    let c1 := (min w (maxX + 1)).toNat
    (((img.drop r0).take (r1 - r0)).map (fun rw => (rw.drop c0).take (c1 - c0))).flatten

/-- Count of red-mask pixels of the region (`countNonZero` of the union of
the two red masks). -/
def redCount (img : HSVImage) (vertices : List Vertex) : ℕ :=
  ((roiPixels img vertices).filter (fun p => inRed1 p || inRed2 p)).length

/-- Count of green-mask pixels of the region. -/
def greenCount (img : HSVImage) (vertices : List Vertex) : ℕ :=
  ((roiPixels img vertices).filter inGreen).length

/-- The color-sign classifier `_get_color_sign`: `0` for a missing image or
an empty region, `1` for red dominance above the threshold, `-1` for green
dominance above the threshold, else `0`. -/
def getColorSign : Option HSVImage → List Vertex → ℤ
  | none, _ => 0
  | some _, [] => 0
  | some img, v0 :: vs =>
    if (roiPixels img (v0 :: vs)).isEmpty then 0
    else
      let r := redCount img (v0 :: vs)
      let g := greenCount img (v0 :: vs)
      if g < r ∧ 5 < r then 1
      else if r < g ∧ 5 < g then -1
      else 0

/-- The public entry point `extract_stock_info`, taking the token list
produced by `process_image` and the optional decoded image
(`cv2.imread` may fail and return `None`). -/
def extract_stock_info (cvImg : Option HSVImage) (items : List Item) :
    List InventoryRecord :=
  extractCore (getColorSign cvImg) items

/-! ### Concrete fixtures used by counterexamples and witnesses -/

/-- A neutral color-sign function: the one obtained when no image is
available (`cv2.imread` returned `None`). -/
def sgn0 : List Vertex → ℤ := getColorSign none

/-- The empty anchor map (no header keywords found). -/
def anch0 : Anchors := ⟨none, none, none, none⟩

/-- Row with a 4-digit code left of a 6-digit code. -/
def rowB : List Item := [⟨"1234".toList, 0, 0, []⟩, ⟨"056303".toList, 100, 0, []⟩]

/-- Row whose first numeric candidate is fractional (`550.5`) and whose
second is a positive integer (`100`). -/
def rowC : List Item :=
  [⟨"2330".toList, 0, 0, []⟩, ⟨"550.5".toList, 100, 0, []⟩, ⟨"100".toList, 200, 0, []⟩]

/-- The symbol token of `rowC`. -/
def sItemC : Item := ⟨"2330".toList, 0, 0, []⟩

/-- The record emitted for `rowC` with no anchors and no image. -/
def recC : InventoryRecord := ⟨"2330".toList, unknownName, 550, mkRat 1101 2, 100⟩

/-- Row with a purely alphabetic fragment left of the symbol. -/
def rowD : List Item :=
  [⟨"ABC".toList, 0, 0, []⟩, ⟨"2330".toList, 50, 0, []⟩, ⟨"100".toList, 200, 0, []⟩]

/-- The symbol token of `rowD`. -/
def sItemD : Item := ⟨"2330".toList, 50, 0, []⟩

/-- The record emitted for `rowD` with no anchors and no image. -/
def recD : InventoryRecord := ⟨"2330".toList, "ABC".toList, 100, 0, 100⟩

/-- Row whose first price-fallback-eligible candidate (`20000`) lies outside
`(0, 10000)` while an in-range fractional candidate (`55.5`) follows it. -/
def rowE : List Item :=
  [⟨"2330".toList, 0, 0, []⟩, ⟨"100".toList, 50, 0, []⟩, ⟨"20000".toList, 100, 0, []⟩,
   ⟨"55.5".toList, 150, 0, []⟩, ⟨"300".toList, 200, 0, []⟩]

/-- The symbol token of `rowE`. -/
def sItemE : Item := ⟨"2330".toList, 0, 0, []⟩

/-- The record emitted for `rowE` with no anchors and no image. -/
def recE : InventoryRecord := ⟨"2330".toList, unknownName, 100, 20000, 300⟩

/-- A red HSV pixel (hue 5 lies in the first red range). -/
def redPx : HSVPixel := ⟨5, 100, 100⟩

/-- An 8-by-8 all-red image. -/
def redImg : HSVImage := List.replicate 8 (List.replicate 8 redPx)

/-- A token whose bounding polygon covers the red image. -/
def itF2 : Item := ⟨"-100".toList, 100, 0, [⟨0, 0⟩, ⟨6, 6⟩]⟩

/-- Row carrying a negative profit numeral over a red (positive) region. -/
def rowF : List Item := [⟨"2330".toList, 0, 0, []⟩, itF2]

/-- A single token with no instrument code. -/
def rowH : List Item := [⟨"hello".toList, 0, 0, []⟩]

/-- Two tokens with identical `center_y`, used by the clustering witness. -/
def rowK : List Item := [⟨"aa".toList, 0, 10, []⟩, ⟨"bb".toList, 50, 10, []⟩]

/-- The record emitted for `rowB` (no anchors, no image). -/
def recB : InventoryRecord := ⟨['1', '2', '3', '4'], unknownName, 56303, 0, 56303⟩

/-- A color-sign function that always reports red dominance. -/
def sgnPos : List Vertex → ℤ := fun _ => 1

/-- An anchor map with only a profit anchor at `x = 5`. -/
def anchP : Anchors := ⟨none, none, some 5, none⟩

/-- An integer-valued candidate with a negative parsed value. -/
def candG : Cand := ⟨-100, 10, []⟩

/-- A fractional candidate. -/
def candH : Cand := ⟨mkRat 55 10, 20, []⟩

/-! ### Helper lemmas -/

theorem rowSymItem_some {row : List Item} {sym : List Char} {sItem : Item}
    (h : rowSymItem row = some (sym, sItem)) :
    ∃ tail, rowSymbols row = sym :: tail ∧
      row.find? (fun it => containsSub sym it.text) = some sItem := by
  unfold rowSymItem at h
  cases h1 : rowSymbols row with
  | nil => rw [h1] at h; cases h
  | cons s tail =>
    rw [h1] at h
    dsimp only at h
    cases h2 : row.find? (fun it => containsSub s it.text) with
    | none => rw [h2] at h; cases h
    | some it =>
      rw [h2] at h
      dsimp only at h
      have h3 := Option.some.inj h
      have h4 : s = sym := congrArg Prod.fst h3
      have h5 : it = sItem := congrArg Prod.snd h3
      subst h4; subst h5
      exact ⟨tail, rfl, h2⟩

theorem processRow_some {sgn : List Vertex → ℤ} {an : Anchors} {row : List Item}
    {rec : InventoryRecord} (h : processRow sgn an row = some rec) :
    ∃ sym sItem, rowSymItem row = some (sym, sItem) ∧
      rec.symbol = sym ∧
      rec.name = (if (extractName sym sItem row).isEmpty then unknownName
        else extractName sym sItem row) ∧
      rec.quantity = |assignQuantity an (rowCandidates sym sItem row)| ∧
      rec.profit = assignProfit sgn an (rowCandidates sym sItem row) ∧
      rec.avg_price = assignPrice an (rowCandidates sym sItem row)
        (assignQuantity an (rowCandidates sym sItem row))
        (assignProfit sgn an (rowCandidates sym sItem row)) := by
  unfold processRow at h
  cases h1 : rowSymItem row with
  | none => rw [h1] at h; cases h
  | some pr =>
    obtain ⟨sym, sItem⟩ := pr
    rw [h1] at h
    simp only at h
    cases h
    exact ⟨sym, sItem, rfl, rfl, rfl, rfl, rfl, rfl⟩

/-! ### Claim C1: symbol selection among multiple matches -/

/-- C1, counterexample: the row `"1234 056303"` contains both a 4-digit and
a 6-digit instrument code, and `extract_stock_info` emits the 4-digit code
`"1234"`, not the 6-digit one, because `symbols[0]` is the first match in
scan order. -/
theorem c1_counterexample :
    rowSymbols rowB = [['1', '2', '3', '4'], ['0', '5', '6', '3', '0', '3']] ∧
    (extract_stock_info none rowB).map (·.symbol) = [['1', '2', '3', '4']] :=
  ⟨by decide, by decide⟩

/-- C1, amended: for every emitted record the symbol is the first 4- or
6-digit match of the row string in left-to-right scan order; a 6-digit code
is selected only when it occurs before every 4-digit match (the code takes
`symbols[0]` and does not prefer 6-digit matches). -/
theorem c1_symbol_first_match (sgn : List Vertex → ℤ) (an : Anchors) (row : List Item)
    (rec : InventoryRecord) (h : processRow sgn an row = some rec) :
    (rowSymbols row).head? = some rec.symbol := by
  obtain ⟨sym, sItem, h1, h2, -⟩ := processRow_some h
  obtain ⟨tail, h3, -⟩ := rowSymItem_some h1
  rw [h3, h2]
  rfl

/-- C1, witness for the amended theorem at the `rowB` fixture. -/
theorem c1_witness : (rowSymbols rowB).head? = some recB.symbol :=
  c1_symbol_first_match sgn0 anch0 rowB recB (by decide)

/-! ### Claim C2: quantity fallback without an anchor -/

/-- C2, counterexample: in `rowC` the numeric candidates are `[550.5, 100]`;
the first positive-integer-valued candidate is `100`, but the emitted
quantity is `int(550.5) = 550` — the code takes the first candidate
unconditionally. -/
theorem c2_counterexample :
    (rowCandidates ['2', '3', '3', '0'] sItemC rowC).map (·.val) = [mkRat 1101 2, 100] ∧
    (extract_stock_info none rowC).map (·.quantity) = [550] :=
  ⟨by decide, by decide⟩

/-- C2, amended: with no quantity anchor, the emitted quantity is the
absolute value of the toward-zero integer truncation of the first numeric
candidate, regardless of the candidate's sign or integrality. -/
theorem c2_quantity_first_candidate (sgn : List Vertex → ℤ) (an : Anchors)
    (row : List Item) (sym : List Char) (sItem : Item) (rec : InventoryRecord)
    (c0 : Cand) (rest : List Cand)
    (hq : an.quantity = none)
    (h : processRow sgn an row = some rec)
    (hsi : rowSymItem row = some (sym, sItem))
    (hc : rowCandidates sym sItem row = c0 :: rest) :
    rec.quantity = |pyInt c0.val| := by
  obtain ⟨sym1, sItem1, h1, -, -, h4, -, -⟩ := processRow_some h
  rw [hsi] at h1
  have h5 : sym = sym1 := congrArg Prod.fst (Option.some.inj h1)
  have h6 : sItem = sItem1 := congrArg Prod.snd (Option.some.inj h1)
  subst h5; subst h6
  rw [hc] at h4
  unfold assignQuantity at h4
  rw [hq] at h4
  exact h4

/-- C2, witness for the amended theorem at the `rowC` fixture. -/
theorem c2_witness : recC.quantity = |pyInt (mkRat 1101 2)| :=
  c2_quantity_first_candidate sgn0 anch0 rowC ['2', '3', '3', '0'] sItemC recC
    ⟨mkRat 1101 2, 100, []⟩ [⟨100, 200, []⟩]
    (by decide) (by decide) (by decide) (by decide)

/-! ### Claim C4: name assembly -/

/-- C4, counterexample: in `rowD` the fragment left of the symbol is the
purely alphabetic `"ABC"` (no ideographic characters), yet it is emitted as
the name — the code keeps every nonempty stripped fragment and has no
ideographic-character filter. -/
theorem c4_counterexample :
    (extract_stock_info none rowD).map (·.name) = [['A', 'B', 'C']] ∧
    (['A', 'B', 'C'].all (fun c =>
      decide (0x4E00 ≤ c.toNat) && decide (c.toNat ≤ 0x9FFF))) = false :=
  ⟨by decide, by decide⟩

/-- C4, amended: the name is assembled from every fragment that remains
nonempty after stripping the symbol substring, the transaction-type tags and
the bracket/pipe punctuation — with no ideographic-character requirement;
only when no fragment remains at all is the name reported as `"未知標的"`. -/
theorem c4_name_assembly (sgn : List Vertex → ℤ) (an : Anchors) (row : List Item)
    (sym : List Char) (sItem : Item) (rec : InventoryRecord)
    (h : processRow sgn an row = some rec)
    (hsi : rowSymItem row = some (sym, sItem)) :
    rec.name = (if (extractName sym sItem row).isEmpty then unknownName
      else extractName sym sItem row) := by
  obtain ⟨sym1, sItem1, h1, -, h3, -⟩ := processRow_some h
  rw [hsi] at h1
  have h5 : sym = sym1 := congrArg Prod.fst (Option.some.inj h1)
  have h6 : sItem = sItem1 := congrArg Prod.snd (Option.some.inj h1)
  subst h5; subst h6
  exact h3

/-- C4, witness for the amended theorem at the `rowD` fixture. -/
theorem c4_witness :
    recD.name = (if (extractName ['2', '3', '3', '0'] sItemD rowD).isEmpty then unknownName
      else extractName ['2', '3', '3', '0'] sItemD rowD) :=
  c4_name_assembly sgn0 anch0 rowD ['2', '3', '3', '0'] sItemD recD (by decide) (by decide)

/-! ### Claim C6: output cardinality and symbol grammar -/

/-- C6, confirmed: at most one record per clustered row, and every emitted
symbol consists of exactly 4 or exactly 6 digits. -/
theorem c6_output_invariants (sgn : List Vertex → ℤ) (items : List Item) :
    (extractCore sgn items).length ≤ (clusterRows items).length ∧
    ∀ rec ∈ extractCore sgn items,
      (rec.symbol.length = 4 ∨ rec.symbol.length = 6) ∧
        rec.symbol.all Char.isDigit = true := by
  constructor
  · exact List.length_filterMap_le _ _
  · intro rec hmem
    obtain ⟨row, hrow, hpr⟩ := List.mem_filterMap.mp hmem
    obtain ⟨sym, sItem, h1, h2, -⟩ := processRow_some hpr
    obtain ⟨tail, h3, -⟩ := rowSymItem_some h1
    have h5 : sym ∈ rowSymbols row := by rw [h3]; exact List.mem_cons_self ..
    have h6 := List.of_mem_filter h5
    rw [h2]
    simp only [isSymbolRun, Bool.and_eq_true, Bool.or_eq_true, beq_iff_eq] at h6
    exact ⟨h6.1, h6.2⟩

/-- C6, witness at the `rowC` fixture. -/
theorem c6_witness :
    (extractCore sgn0 rowC).length ≤ (clusterRows rowC).length ∧
    ((recC.symbol.length = 4 ∨ recC.symbol.length = 6) ∧
      recC.symbol.all Char.isDigit = true) :=
  ⟨(c6_output_invariants sgn0 rowC).1, (c6_output_invariants sgn0 rowC).2 recC (by decide)⟩

/-! ### Claim C7: non-negative quantity -/

/-- C7, confirmed: every emitted record has a non-negative quantity
(the record stores `abs(quantity)`). -/
theorem c7_quantity_nonneg (sgn : List Vertex → ℤ) (items : List Item)
    (rec : InventoryRecord) (h : rec ∈ extractCore sgn items) : 0 ≤ rec.quantity := by
  obtain ⟨row, -, hpr⟩ := List.mem_filterMap.mp h
  obtain ⟨sym, sItem, -, -, -, h4, -, -⟩ := processRow_some hpr
  rw [h4]
  exact abs_nonneg _

/-- C7, witness at the `rowC` fixture. -/
theorem c7_witness : 0 ≤ recC.quantity :=
  c7_quantity_nonneg sgn0 rowC recC (by decide)

/-! ### Claim C10: empty-output characterisation -/

/-- C10, counterexample: a nonempty token list with no instrument code also
yields an empty output, so an empty token list is not the only condition
producing an empty result. -/
theorem c10_counterexample :
    extract_stock_info none rowH = [] ∧ rowH ≠ [] :=
  ⟨by decide, by decide⟩

/-- C10, amended: an empty token list yields an empty output, and in general
the output is empty exactly when no clustered row yields a symbol; row-level
failures never abort the batch. -/
theorem c10_empty_characterization (sgn : List Vertex → ℤ) (items : List Item) :
    extractCore sgn [] = [] ∧
    (extractCore sgn items = [] ↔ ∀ row ∈ clusterRows items, rowSymItem row = none) := by
  constructor
  · rfl
  · unfold extractCore
    rw [List.filterMap_eq_nil_iff]
    constructor
    · intro h row hrow
      have h1 := h row hrow
      unfold processRow at h1
      cases h2 : rowSymItem row with
      | none => rfl
      | some pr =>
        obtain ⟨sym, sItem⟩ := pr
        rw [h2] at h1
        cases h1
    · intro h row hrow
      unfold processRow
      rw [h row hrow]

/-- C10, witness at the `rowH` fixture. -/
theorem c10_witness :
    extractCore sgn0 [] = [] ∧
    (extractCore sgn0 rowH = [] ↔ ∀ row ∈ clusterRows rowH, rowSymItem row = none) :=
  c10_empty_characterization sgn0 rowH

/-! ### Claim C3: color-sign application to the profit -/

theorem profitFallback_skip (sgn : List Vertex → ℤ) (c : Cand) (post : List Cand) :
    ∀ pre : List Cand, (∀ d ∈ pre, d.val.den ≠ 1) → c.val.den = 1 →
      profitFallback sgn (pre ++ c :: post) =
        (if sgn c.vertices = -1 then -|pyInt c.val| else pyInt c.val) := by
  intro pre
  induction pre with
  | nil =>
    intro _ hc
    rw [List.nil_append]
    unfold profitFallback
    rw [if_pos hc]
  | cons d pre1 ih =>
    intro hpre hc
    have hd : d.val.den ≠ 1 := hpre d (List.mem_cons_self ..)
    rw [List.cons_append]
    unfold profitFallback
    rw [if_neg hd]
    exact ih (fun e he => hpre e (List.mem_cons_of_mem d he)) hc

/-- C3, counterexample: with no profit anchor, the rightmost integer
candidate `-100` sits on a region the classifier reports as red (`+1`), yet
the emitted profit stays `-100` — the `+1` sign does not force a positive
magnitude in the fallback path. -/
theorem c3_counterexample :
    getColorSign (some redImg) itF2.vertices = 1 ∧
    (extract_stock_info (some redImg) rowF).map (·.profit) = [-100] :=
  ⟨by decide, by decide⟩

/-- C3, amended: in the anchor-based path the color sign forces the profit
magnitude positive on `+1`, negative on `-1`, and keeps the parsed value
otherwise; in the no-anchor fallback path (first integer-valued candidate
from the right) only the `-1` sign forces a negative magnitude, and any
other sign — including `+1` — leaves the parsed value unchanged. -/
theorem c3_profit_color_sign (sgn : List Vertex → ℤ) (an : Anchors)
    (c0 : Cand) (rest : List Cand) :
    (∀ ax, an.profit = some ax →
      assignProfit sgn an (c0 :: rest) =
        (if sgn (argminBy (fun c => |qSub c.x ax|) c0 rest).vertices = 1 then
          |pyInt (argminBy (fun c => |qSub c.x ax|) c0 rest).val|
        else if sgn (argminBy (fun c => |qSub c.x ax|) c0 rest).vertices = -1 then
          -|pyInt (argminBy (fun c => |qSub c.x ax|) c0 rest).val|
        else pyInt (argminBy (fun c => |qSub c.x ax|) c0 rest).val)) ∧
    (an.profit = none →
      ∀ pre c post, (c0 :: rest).reverse = pre ++ c :: post →
        (∀ d ∈ pre, d.val.den ≠ 1) → c.val.den = 1 →
        assignProfit sgn an (c0 :: rest) =
          (if sgn c.vertices = -1 then -|pyInt c.val| else pyInt c.val)) := by
  constructor
  · intro ax hax
    unfold assignProfit
    rw [hax]
    dsimp only
    generalize (argminBy (fun c => |qSub c.x ax|) c0 rest) = m
    generalize sgn m.vertices = s
    generalize pyInt m.val = p
    by_cases h1 : s = 1
    · subst h1
      norm_num
    · by_cases h2 : s = -1
      · subst h2
        norm_num
      · simp [h1, h2]
  · intro h0 pre c post hrev hpre hc
    unfold assignProfit
    rw [h0]
    dsimp only
    rw [hrev]
    exact profitFallback_skip sgn c post pre hpre hc

/-- C3, witness for both paths of the amended theorem. -/
theorem c3_witness :
    (assignProfit sgnPos anchP (candG :: [candH]) =
      (if sgnPos (argminBy (fun c => |qSub c.x 5|) candG [candH]).vertices = 1 then
        |pyInt (argminBy (fun c => |qSub c.x 5|) candG [candH]).val|
      else if sgnPos (argminBy (fun c => |qSub c.x 5|) candG [candH]).vertices = -1 then
        -|pyInt (argminBy (fun c => |qSub c.x 5|) candG [candH]).val|
      else pyInt (argminBy (fun c => |qSub c.x 5|) candG [candH]).val)) ∧
    (assignProfit sgnPos anch0 (candG :: [candH]) =
      (if sgnPos candG.vertices = -1 then -|pyInt candG.val| else pyInt candG.val)) :=
  ⟨(c3_profit_color_sign sgnPos anchP candG [candH]).1 5 rfl,
   (c3_profit_color_sign sgnPos anch0 candG [candH]).2 rfl [candH] candG []
     (by decide) (by decide) (by decide)⟩

/-! ### Claim C5: price fallback -/

theorem priceGo_all_dotted (q p : ℤ) :
    ∀ (l : List Cand) (acc : ℚ), (∀ c ∈ l, hasDotRepr c.val = true) →
      priceGo q p l acc =
        (((l.find? (fun c =>
            decide (mkRat 1 100 < |qSub c.val (mkRat q 1)|) &&
            decide (mkRat 1 100 < |qSub c.val (mkRat p 1)|))).map (·.val)).getD acc) := by
  intro l
  induction l with
  | nil => intro acc _; rfl
  | cons c t ih =>
    intro acc hdot
    unfold priceGo
    by_cases h1 : mkRat 1 100 < |qSub c.val (mkRat q 1)| ∧ mkRat 1 100 < |qSub c.val (mkRat p 1)|
    · rw [if_pos h1, if_pos (hdot c (List.mem_cons_self ..)),
        List.find?_cons_of_pos _ (by simpa using h1)]
      rfl
    · rw [if_neg h1, List.find?_cons_of_neg _ (by simpa using h1)]
      exact ih acc (fun e he => hdot e (List.mem_cons_of_mem c he))

/-- C5, counterexample: in `rowE` (no anchors) the assigned quantity is
`100` and profit is `300`; the candidate `55.5` lies strictly inside
`(0, 10000)`, is fractional and differs from both, yet the emitted
`avg_price` is the earlier candidate `20000`, which lies outside the claimed
range and is integer-valued. -/
theorem c5_counterexample :
    (rowCandidates ['2', '3', '3', '0'] sItemE rowE).map (·.val) =
      [100, 20000, mkRat 111 2, 300] ∧
    (extract_stock_info none rowE).map (·.quantity) = [100] ∧
    (extract_stock_info none rowE).map (·.profit) = [300] ∧
    (extract_stock_info none rowE).map (·.avg_price) = [20000] :=
  ⟨by decide, by decide, by decide, by decide⟩

/-- C5, amended: with no price anchor, the assigned `avg_price` is simply
the first candidate whose value differs by more than `0.01` from both the
assigned quantity and profit (or `0.0` when none differs): there is no
`(0, 10000)` range restriction, and the fractional-part preference is
inoperative because the float-representation test `'.' in str(...)` holds
for every value of ordinary magnitude (hypothesis `hdot`). -/
theorem c5_price_first_differing (an : Anchors) (cands : List Cand) (q p : ℤ)
    (hpr : an.price = none) (hne : cands ≠ [])
    (hdot : ∀ c ∈ cands, hasDotRepr c.val = true) :
    assignPrice an cands q p =
      (((cands.find? (fun c =>
          decide (mkRat 1 100 < |qSub c.val (mkRat q 1)|) &&
          decide (mkRat 1 100 < |qSub c.val (mkRat p 1)|))).map (·.val)).getD 0) := by
  obtain ⟨c0, rest, rfl⟩ := List.exists_cons_of_ne_nil hne
  unfold assignPrice
  rw [hpr]
  dsimp only
  exact priceGo_all_dotted q p (c0 :: rest) 0 hdot

/-- C5, witness: the price fallback at the candidate list of `rowE` with the
quantity and profit assigned there. -/
theorem c5_witness :
    assignPrice anch0 (rowCandidates ['2', '3', '3', '0'] sItemE rowE) 100 300 =
      ((((rowCandidates ['2', '3', '3', '0'] sItemE rowE).find? (fun c =>
          decide (mkRat 1 100 < |qSub c.val (mkRat (100 : ℤ) 1)|) &&
          decide (mkRat 1 100 < |qSub c.val (mkRat (300 : ℤ) 1)|))).map (·.val)).getD 0) :=
  c5_price_first_differing anch0 (rowCandidates ['2', '3', '3', '0'] sItemE rowE) 100 300
    (by decide) (by decide) (by decide)

/-! ### Claim C8: color-sign classification -/

/-- C8, confirmed: the classifier returns `0` whenever the image is absent,
returns `1` exactly when red-mask pixels strictly exceed green-mask pixels
and exceed the threshold 5, returns `-1` in the symmetric green-dominant
case, and returns `0` otherwise. -/
theorem c8_color_sign_classifier (img : HSVImage) (verts : List Vertex) :
    getColorSign none verts = 0 ∧
    (getColorSign (some img) verts = 1 ↔
      greenCount img verts < redCount img verts ∧ 5 < redCount img verts) ∧
    (getColorSign (some img) verts = -1 ↔
      redCount img verts < greenCount img verts ∧ 5 < greenCount img verts) ∧
    (getColorSign (some img) verts = 0 ↔
      (¬(greenCount img verts < redCount img verts ∧ 5 < redCount img verts) ∧
       ¬(redCount img verts < greenCount img verts ∧ 5 < greenCount img verts))) := by
  refine ⟨rfl, ?_⟩
  cases verts with
  | nil =>
    have h0 : roiPixels img [] = [] := rfl
    simp [getColorSign, redCount, greenCount, h0]
  | cons v0 vs =>
    simp only [getColorSign]
    by_cases he : (roiPixels img (v0 :: vs)).isEmpty
    · have h0 : roiPixels img (v0 :: vs) = [] := by simpa using he
      rw [if_pos he]
      simp [redCount, greenCount, h0]
    · rw [if_neg he]
      by_cases h1 : greenCount img (v0 :: vs) < redCount img (v0 :: vs) ∧
          5 < redCount img (v0 :: vs)
      · rw [if_pos h1]
        refine ⟨by simp [h1], ?_, ?_⟩ <;> constructor <;> intro h2 <;> exfalso <;> omega
      · rw [if_neg h1]
        by_cases h2 : redCount img (v0 :: vs) < greenCount img (v0 :: vs) ∧
            5 < greenCount img (v0 :: vs)
        · rw [if_pos h2]
          refine ⟨?_, by simp [h2], ?_⟩ <;> constructor <;> intro h3 <;> exfalso <;> omega
        · rw [if_neg h2]
          refine ⟨?_, ?_, by simp [h1, h2]⟩ <;> constructor <;> intro h3 <;> first
            | (exfalso; exact absurd h3 (by decide))
            | (exact absurd h3 h1)
            | (exact absurd h3 h2)

/-! ### Claim C9: row clustering -/

theorem avgY_eq (row : List Item) :
    avgY row = (row.map (·.y)).sum / (row.length : ℚ) := by
  rw [avgY, qDivNat_eq, qSum_eq]

theorem avgY_singleton (u : Item) : avgY [u] = u.y := by
  rw [avgY_eq]
  simp

theorem clusterGo_cons (cur : List Item) (i : Item) (rest : List Item) :
    clusterGo cur (i :: rest) =
      (if |qSub i.y (avgY cur)| < 25 then clusterGo (cur ++ [i]) rest
       else sortX cur :: clusterGo [i] rest) := rfl

theorem list_sum_lt (l : List ℚ) (A : ℚ) (hne : l ≠ []) (hall : ∀ x ∈ l, x < A) :
    l.sum < l.length * A := by
  induction l with
  | nil => exact absurd rfl hne
  | cons x t ih =>
    have hx : x < A := hall x (List.mem_cons_self ..)
    have ht : t.sum ≤ t.length * A := by
      cases t with
      | nil => simp
      | cons y t1 =>
        exact le_of_lt (ih (by simp)
          (fun z hz => hall z (List.mem_cons_of_mem x hz)))
    simp only [List.sum_cons, List.length_cons]
    push_cast
    linarith

theorem exists_ge_avgY (cur : List Item) (hne : cur ≠ []) :
    ∃ m ∈ cur, avgY cur ≤ m.y := by
  by_contra hcon
  push_neg at hcon
  have hn : (0 : ℚ) < cur.length := by
    exact_mod_cast List.length_pos.mpr hne
  have hS := list_sum_lt (cur.map (·.y)) (avgY cur) (by simpa using hne)
    (fun x hx => by
      obtain ⟨m, hm, rfl⟩ := List.mem_map.mp hx
      exact hcon m hm)
  rw [List.length_map] at hS
  rw [avgY_eq, mul_comm, div_mul_cancel₀ _ (ne_of_gt hn)] at hS
  exact lt_irrefl _ hS

theorem avgY_append_same (cur : List Item) (u : Item) (hne : cur ≠ []) (v : ℚ)
    (hu : u.y = v) : |v - avgY (cur ++ [u])| ≤ |v - avgY cur| := by
  have hn : (0 : ℚ) < cur.length := by
    exact_mod_cast List.length_pos.mpr hne
  rw [avgY_eq, avgY_eq, List.map_append, List.sum_append, List.length_append]
  simp only [List.map_cons, List.map_nil, List.sum_cons, List.sum_nil, add_zero,
    List.length_cons, List.length_nil, zero_add, hu]
  push_cast
  have key : v - ((cur.map (·.y)).sum + v) / ((cur.length : ℚ) + 1) =
      ((cur.length : ℚ) / ((cur.length : ℚ) + 1)) *
        (v - (cur.map (·.y)).sum / (cur.length : ℚ)) := by
    field_simp
    ring
  rw [key, abs_mul, abs_of_nonneg (by positivity :
    (0 : ℚ) ≤ (cur.length : ℚ) / ((cur.length : ℚ) + 1))]
  exact mul_le_of_le_one_left (abs_nonneg _)
    (by rw [div_le_one (by positivity)]; linarith)

theorem clusterGo_covers (rest : List Item) :
    ∀ (cur : List Item) (u : Item), u ∈ cur ∨ u ∈ rest →
      ∃ r ∈ clusterGo cur rest, u ∈ r := by
  induction rest with
  | nil =>
    intro cur u hu
    rcases hu with hu | hu
    · exact ⟨sortX cur, List.mem_singleton.mpr rfl,
        ((List.perm_insertionSort xle cur).mem_iff).mpr hu⟩
    · exact absurd hu (List.not_mem_nil u)
  | cons i rest1 ih =>
    intro cur u hu
    by_cases hj : |qSub i.y (avgY cur)| < 25
    · rw [show clusterGo cur (i :: rest1) = clusterGo (cur ++ [i]) rest1 from by
        rw [clusterGo_cons, if_pos hj]]
      apply ih (cur ++ [i]) u
      rcases hu with hu | hu
      · exact Or.inl (List.mem_append_left _ hu)
      · rcases List.mem_cons.mp hu with rfl | hu1
        · exact Or.inl (List.mem_append_right _ (List.mem_singleton.mpr rfl))
        · exact Or.inr hu1
    · rw [show clusterGo cur (i :: rest1) = sortX cur :: clusterGo [i] rest1 from by
        rw [clusterGo_cons, if_neg hj]]
      rcases hu with hu | hu
      · exact ⟨sortX cur, List.mem_cons_self ..,
          ((List.perm_insertionSort xle cur).mem_iff).mpr hu⟩
      · rcases List.mem_cons.mp hu with rfl | hu1
        · obtain ⟨r, hr, hur⟩ := ih [u] u (Or.inl (List.mem_singleton.mpr rfl))
          exact ⟨r, List.mem_cons_of_mem _ hr, hur⟩
        · obtain ⟨r, hr, hur⟩ := ih [i] u (Or.inr hu1)
          exact ⟨r, List.mem_cons_of_mem _ hr, hur⟩

theorem clusterGo_keeps (rest : List Item) :
    ∀ cur : List Item, ∃ r ∈ clusterGo cur rest, ∀ c ∈ cur, c ∈ r := by
  induction rest with
  | nil =>
    intro cur
    exact ⟨sortX cur, List.mem_singleton.mpr rfl,
      fun c hc => ((List.perm_insertionSort xle cur).mem_iff).mpr hc⟩
  | cons i rest1 ih =>
    intro cur
    by_cases hj : |qSub i.y (avgY cur)| < 25
    · rw [show clusterGo cur (i :: rest1) = clusterGo (cur ++ [i]) rest1 from by
        rw [clusterGo_cons, if_pos hj]]
      obtain ⟨r, hr, hall⟩ := ih (cur ++ [i])
      exact ⟨r, hr, fun c hc => hall c (List.mem_append_left _ hc)⟩
    · rw [show clusterGo cur (i :: rest1) = sortX cur :: clusterGo [i] rest1 from by
        rw [clusterGo_cons, if_neg hj]]
      exact ⟨sortX cur, List.mem_cons_self ..,
        fun c hc => ((List.perm_insertionSort xle cur).mem_iff).mpr hc⟩

theorem clusterGo_block (v : ℚ) (vs : List Item) :
    ∀ (post cur : List Item), cur ≠ [] → (∀ u ∈ vs, u.y = v) →
      |v - avgY cur| < 25 →
      ∃ r ∈ clusterGo cur (vs ++ post), (∀ u ∈ vs, u ∈ r) ∧ (∀ c ∈ cur, c ∈ r) := by
  induction vs with
  | nil =>
    intro post cur hne _ _
    rw [List.nil_append]
    obtain ⟨r, hr, hall⟩ := clusterGo_keeps post cur
    exact ⟨r, hr, fun u hu => absurd hu (List.not_mem_nil u), hall⟩
  | cons u vs1 ih =>
    intro post cur hne hall hlt
    have hu : u.y = v := hall u (List.mem_cons_self ..)
    have hj : |qSub u.y (avgY cur)| < 25 := by
      rw [qSub_eq, hu]
      exact hlt
    rw [List.cons_append, show clusterGo cur (u :: (vs1 ++ post)) =
        clusterGo (cur ++ [u]) (vs1 ++ post) from by
      rw [clusterGo_cons, if_pos hj]]
    have hlt2 : |v - avgY (cur ++ [u])| < 25 :=
      lt_of_le_of_lt (avgY_append_same cur u hne v hu) hlt
    obtain ⟨r, hr, h1, h2⟩ := ih post (cur ++ [u]) (by simp)
      (fun w hw => hall w (List.mem_cons_of_mem u hw)) hlt2
    refine ⟨r, hr, fun w hw => ?_, fun c hc => h2 c (List.mem_append_left _ hc)⟩
    rcases List.mem_cons.mp hw with rfl | hw1
    · exact h2 w (List.mem_append_right _ (List.mem_singleton.mpr rfl))
    · exact h1 w hw1

theorem clusterGo_pair_cur (cur : List Item) (t1 : Item) (v : ℚ)
    (a b : List Item) (t2 : Item) (hne : cur ≠ []) (ht1 : t1 ∈ cur)
    (hlt : |v - avgY cur| < 25) (ha : ∀ u ∈ a, u.y = v) (ht2 : t2.y = v) :
    ∃ r ∈ clusterGo cur (a ++ t2 :: b), t1 ∈ r ∧ t2 ∈ r := by
  have hconst : ∀ u ∈ a ++ [t2], u.y = v := by
    intro u hu
    rcases List.mem_append.mp hu with hu1 | hu1
    · exact ha u hu1
    · rw [List.mem_singleton.mp hu1]
      exact ht2
  obtain ⟨r, hr, h1, h2⟩ := clusterGo_block v (a ++ [t2]) b cur hne hconst hlt
  rw [List.append_assoc, List.singleton_append] at hr
  exact ⟨r, hr, h2 t1 ht1, h1 t2 (List.mem_append_right _ (List.mem_singleton.mpr rfl))⟩

theorem sorted_split_const (l : List Item) (t2 : Item) (v : ℚ)
    (hs : List.Sorted yle l) (hlb : ∀ u ∈ l, v ≤ u.y) (ht2 : t2 ∈ l)
    (hv : t2.y = v) : ∃ a b, l = a ++ t2 :: b ∧ ∀ u ∈ a, u.y = v := by
  obtain ⟨a, b, rfl⟩ := List.append_of_mem ht2
  refine ⟨a, b, rfl, fun u hu => ?_⟩
  have h1 : v ≤ u.y := hlb u (List.mem_append_left _ hu)
  have h2 : yle u t2 :=
    (List.pairwise_append.mp hs).2.2 u hu t2 (List.mem_cons_self ..)
  have h3 : u.y ≤ v := hv ▸ h2
  exact le_antisymm h3 h1

theorem clusterGo_head_pair (cur : List Item) (i : Item) (rest1 : List Item)
    (t2 : Item) (hne : cur ≠ []) (hs : List.Sorted yle (i :: rest1))
    (ht2 : t2 ∈ rest1) (heq : t2.y = i.y) :
    ∃ r ∈ clusterGo cur (i :: rest1), i ∈ r ∧ t2 ∈ r := by
  have hlb : ∀ u ∈ rest1, i.y ≤ u.y := fun u hu => List.rel_of_sorted_cons hs u hu
  obtain ⟨a, b, hab, hconst⟩ :=
    sorted_split_const rest1 t2 i.y hs.of_cons hlb ht2 heq
  by_cases hj : |qSub i.y (avgY cur)| < 25
  · rw [show clusterGo cur (i :: rest1) = clusterGo (cur ++ [i]) rest1 from by
      rw [clusterGo_cons, if_pos hj], hab]
    apply clusterGo_pair_cur (cur ++ [i]) i i.y a b t2 (by simp)
      (List.mem_append_right _ (List.mem_singleton.mpr rfl))
      ?_ hconst heq
    calc |i.y - avgY (cur ++ [i])| ≤ |i.y - avgY cur| :=
        avgY_append_same cur i hne i.y rfl
      _ < 25 := by rw [← qSub_eq]; exact hj
  · rw [show clusterGo cur (i :: rest1) = sortX cur :: clusterGo [i] rest1 from by
      rw [clusterGo_cons, if_neg hj], hab]
    obtain ⟨r, hr, hp⟩ := clusterGo_pair_cur [i] i i.y a b t2
      (by simp) (List.mem_singleton.mpr rfl)
      (by rw [avgY_singleton]; simp) hconst heq
    exact ⟨r, List.mem_cons_of_mem _ hr, hp⟩

theorem clusterGo_pair (rest : List Item) :
    ∀ (cur : List Item) (t1 t2 : Item), cur ≠ [] → List.Sorted yle rest →
      t1 ∈ rest → t2 ∈ rest → t1.y = t2.y →
      ∃ r ∈ clusterGo cur rest, t1 ∈ r ∧ t2 ∈ r := by
  induction rest with
  | nil =>
    intro _ t1 _ _ _ h1 _ _
    exact absurd h1 (List.not_mem_nil t1)
  | cons i rest1 ih =>
    intro cur t1 t2 hne hs ht1 ht2 heq
    rcases List.mem_cons.mp ht1 with h1e | ht1r
    · subst h1e
      rcases List.mem_cons.mp ht2 with h2e | ht2r
      · subst h2e
        obtain ⟨r, hr, hu⟩ :=
          clusterGo_covers (t2 :: rest1) cur t2 (Or.inr (List.mem_cons_self ..))
        exact ⟨r, hr, hu, hu⟩
      · obtain ⟨r, hr, h1, h2⟩ :=
          clusterGo_head_pair cur t1 rest1 t2 hne hs ht2r heq.symm
        exact ⟨r, hr, h1, h2⟩
    · rcases List.mem_cons.mp ht2 with h2e | ht2r
      · subst h2e
        obtain ⟨r, hr, h1, h2⟩ :=
          clusterGo_head_pair cur t2 rest1 t1 hne hs ht1r heq
        exact ⟨r, hr, h2, h1⟩
      · by_cases hj : |qSub i.y (avgY cur)| < 25
        · rw [show clusterGo cur (i :: rest1) = clusterGo (cur ++ [i]) rest1 from by
            rw [clusterGo_cons, if_pos hj]]
          exact ih (cur ++ [i]) t1 t2 (by simp) hs.of_cons ht1r ht2r heq
        · rw [show clusterGo cur (i :: rest1) = sortX cur :: clusterGo [i] rest1 from by
            rw [clusterGo_cons, if_neg hj]]
          obtain ⟨r, hr, hp⟩ :=
            ih [i] t1 t2 (by simp) hs.of_cons ht1r ht2r heq
          exact ⟨r, List.mem_cons_of_mem _ hr, hp⟩

theorem same_y_same_row (items : List Item) (t1 t2 : Item)
    (h1 : t1 ∈ items) (h2 : t2 ∈ items) (heq : t1.y = t2.y) :
    ∃ r ∈ clusterRows items, t1 ∈ r ∧ t2 ∈ r := by
  have hperm : (List.insertionSort yle items).Perm items := List.perm_insertionSort yle items
  have hs : List.Sorted yle (sortY items) := List.sorted_insertionSort yle items
  have h1s : t1 ∈ sortY items := hperm.mem_iff.mpr h1
  have h2s : t2 ∈ sortY items := hperm.mem_iff.mpr h2
  cases hsy : sortY items with
  | nil =>
    rw [hsy] at h1s
    exact absurd h1s (List.not_mem_nil t1)
  | cons i rest =>
    rw [hsy] at h1s h2s hs
    rw [show clusterRows items = clusterGo [i] rest from by
      unfold clusterRows; rw [hsy]]
    have hlb : ∀ u ∈ rest, i.y ≤ u.y := fun u hu => List.rel_of_sorted_cons hs u hu
    rcases List.mem_cons.mp h1s with h1e | h1r
    · subst h1e
      rcases List.mem_cons.mp h2s with h2e | h2r
      · subst h2e
        obtain ⟨r, hr, hu⟩ :=
          clusterGo_covers rest [t2] t2 (Or.inl (List.mem_singleton.mpr rfl))
        exact ⟨r, hr, hu, hu⟩
      · obtain ⟨a, b, hab, hconst⟩ :=
          sorted_split_const rest t2 t1.y hs.of_cons hlb h2r heq.symm
        rw [hab]
        exact clusterGo_pair_cur [t1] t1 t1.y a b t2 (by simp)
          (List.mem_singleton.mpr rfl) (by rw [avgY_singleton]; simp) hconst heq.symm
    · rcases List.mem_cons.mp h2s with h2e | h2r
      · subst h2e
        obtain ⟨a, b, hab, hconst⟩ :=
          sorted_split_const rest t1 t2.y hs.of_cons hlb h1r heq
        rw [hab]
        obtain ⟨r, hr, hp1, hp2⟩ := clusterGo_pair_cur [t2] t2 t2.y a b t1
          (by simp) (List.mem_singleton.mpr rfl)
          (by rw [avgY_singleton]; simp) hconst heq
        exact ⟨r, hr, hp2, hp1⟩
      · exact clusterGo_pair rest [i] t1 t2 (by simp) hs.of_cons h1r h2r heq

theorem clusterGo_near (rest : List Item) :
    ∀ cur : List Item, cur ≠ [] → List.Sorted yle rest →
      (∀ c ∈ cur, ∀ u ∈ rest, c.y ≤ u.y) →
      (∀ t ∈ cur, 2 ≤ cur.length →
        ∃ s ∈ cur, |t.y - s.y| < 25 ∧ (s ≠ t ∨ 2 ≤ cur.count t)) →
      ∀ r ∈ clusterGo cur rest, ∀ t ∈ r, 2 ≤ r.length →
        ∃ s ∈ r, |t.y - s.y| < 25 ∧ (s ≠ t ∨ 2 ≤ r.count t) := by
  induction rest with
  | nil =>
    intro cur hne _ _ hgood r hr t ht hlen
    have hperm : (sortX cur).Perm cur := List.perm_insertionSort xle cur
    rw [show clusterGo cur [] = [sortX cur] from rfl] at hr
    rw [List.mem_singleton.mp hr] at ht hlen ⊢
    obtain ⟨s, hs1, hs2, hs3⟩ := hgood t (hperm.mem_iff.mp ht)
      (by rw [← hperm.length_eq]; exact hlen)
    refine ⟨s, hperm.mem_iff.mpr hs1, hs2, ?_⟩
    rcases hs3 with hs3 | hs3
    · exact Or.inl hs3
    · exact Or.inr (by rw [hperm.count_eq]; exact hs3)
  | cons i rest1 ih =>
    intro cur hne hs horder hgood r hr t ht hlen
    by_cases hj : |qSub i.y (avgY cur)| < 25
    · rw [show clusterGo cur (i :: rest1) = clusterGo (cur ++ [i]) rest1 from by
        rw [clusterGo_cons, if_pos hj]] at hr
      have hjq : |i.y - avgY cur| < 25 := by rw [← qSub_eq]; exact hj
      refine ih (cur ++ [i]) (by simp) hs.of_cons ?_ ?_ r hr t ht hlen
      · intro c hc u hu
        rcases List.mem_append.mp hc with hc1 | hc1
        · exact horder c hc1 u (List.mem_cons_of_mem i hu)
        · rw [List.mem_singleton.mp hc1]
          exact List.rel_of_sorted_cons hs u hu
      · intro w hw _
        rcases List.mem_append.mp hw with hw1 | hw1
        · by_cases hl : 2 ≤ cur.length
          · obtain ⟨s, hs1, hs2, hs3⟩ := hgood w hw1 hl
            refine ⟨s, List.mem_append_left _ hs1, hs2, ?_⟩
            rcases hs3 with hs3 | hs3
            · exact Or.inl hs3
            · exact Or.inr (le_trans hs3 (by
                rw [List.count_append]
                exact Nat.le_add_right _ _))
          · have hl1 : cur.length = 1 := by
              have := List.length_pos.mpr hne
              omega
            obtain ⟨m, rfl⟩ := List.length_eq_one.mp hl1
            have hwm : w = m := List.mem_singleton.mp hw1
            subst hwm
            refine ⟨i, List.mem_append_right _ (List.mem_singleton.mpr rfl), ?_, ?_⟩
            · rw [avgY_singleton] at hjq
              rw [abs_sub_comm]
              exact hjq
            · by_cases him : i = w
              · refine Or.inr ?_
                rw [him, List.count_append]
                have hc1 : [w].count w = 1 := by simp
                have hc2 : List.count w [w] = 1 := by simp
                omega
              · exact Or.inl him
        · have hwi : w = i := List.mem_singleton.mp hw1
          subst hwi
          obtain ⟨m, hm, hmavg⟩ := exists_ge_avgY cur hne
          have hmw : m.y ≤ w.y := horder m hm w (List.mem_cons_self ..)
          refine ⟨m, List.mem_append_left _ hm, ?_, ?_⟩
          · rw [abs_of_nonneg (by linarith)]
            have : w.y - avgY cur ≤ |w.y - avgY cur| := le_abs_self _
            linarith
          · by_cases hmw2 : m = w
            · refine Or.inr ?_
              rw [List.count_append]
              have hc1 : 1 ≤ cur.count w := List.count_pos_iff.mpr (hmw2 ▸ hm)
              have hc2 : [w].count w = 1 := by simp
              omega
            · exact Or.inl hmw2
    · rw [show clusterGo cur (i :: rest1) = sortX cur :: clusterGo [i] rest1 from by
        rw [clusterGo_cons, if_neg hj]] at hr
      rcases List.mem_cons.mp hr with rfl | hr1
      · have hperm : (sortX cur).Perm cur := List.perm_insertionSort xle cur
        obtain ⟨s, hs1, hs2, hs3⟩ := hgood t (hperm.mem_iff.mp ht)
          (by rw [← hperm.length_eq]; exact hlen)
        refine ⟨s, hperm.mem_iff.mpr hs1, hs2, ?_⟩
        rcases hs3 with hs3 | hs3
        · exact Or.inl hs3
        · exact Or.inr (by rw [hperm.count_eq]; exact hs3)
      · refine ih [i] (by simp) hs.of_cons ?_ ?_ r hr1 t ht hlen
        · intro c hc u hu
          rw [List.mem_singleton.mp hc]
          exact List.rel_of_sorted_cons hs u hu
        · intro w _ habs
          simp at habs

theorem row_member_near (items r : List Item) (t : Item)
    (hr : r ∈ clusterRows items) (ht : t ∈ r) (hlen : 2 ≤ r.length) :
    ∃ s ∈ r, |t.y - s.y| < 25 ∧ (s ≠ t ∨ 2 ≤ r.count t) := by
  have hs : List.Sorted yle (sortY items) := List.sorted_insertionSort yle items
  cases hsy : sortY items with
  | nil =>
    rw [show clusterRows items = ([] : List (List Item)) from by
      unfold clusterRows; rw [hsy]] at hr
    exact absurd hr (List.not_mem_nil r)
  | cons i rest =>
    rw [hsy] at hs
    rw [show clusterRows items = clusterGo [i] rest from by
      unfold clusterRows; rw [hsy]] at hr
    refine clusterGo_near rest [i] (by simp) hs.of_cons ?_ ?_ r hr t ht hlen
    · intro c hc u hu
      rw [List.mem_singleton.mp hc]
      exact List.rel_of_sorted_cons hs u hu
    · intro w _ habs
      simp at habs

/-- C9, confirmed: two input tokens with identical `center_y` always end up
in the same clustered row; and every member of a row with at least two
members has another occurrence in that row whose `center_y` is within the
tolerance 25 — equivalently, a token whose `center_y` differs by at least
the tolerance from every other member of a row is never a member of that
row. -/
theorem c9_row_clustering :
    (∀ (items : List Item) (t1 t2 : Item), t1 ∈ items → t2 ∈ items →
      t1.y = t2.y → ∃ r ∈ clusterRows items, t1 ∈ r ∧ t2 ∈ r) ∧
    (∀ (items r : List Item) (t : Item), r ∈ clusterRows items → t ∈ r →
      2 ≤ r.length →
      ∃ s ∈ r, |t.y - s.y| < 25 ∧ (s ≠ t ∨ 2 ≤ r.count t)) :=
  ⟨same_y_same_row, row_member_near⟩

/-- C9, witness at the two-token fixture `rowK` (identical `center_y`). -/
theorem c9_witness :
    (∃ r ∈ clusterRows rowK, (⟨"aa".toList, 0, 10, []⟩ : Item) ∈ r ∧
      (⟨"bb".toList, 50, 10, []⟩ : Item) ∈ r) ∧
    (∃ s ∈ [(⟨"aa".toList, 0, 10, []⟩ : Item), ⟨"bb".toList, 50, 10, []⟩],
      |(⟨"aa".toList, 0, 10, []⟩ : Item).y - s.y| < 25 ∧
        (s ≠ ⟨"aa".toList, 0, 10, []⟩ ∨
          2 ≤ [(⟨"aa".toList, 0, 10, []⟩ : Item),
            ⟨"bb".toList, 50, 10, []⟩].count ⟨"aa".toList, 0, 10, []⟩)) :=
  ⟨c9_row_clustering.1 rowK ⟨"aa".toList, 0, 10, []⟩ ⟨"bb".toList, 50, 10, []⟩
      (by decide) (by decide) (by decide),
   c9_row_clustering.2 rowK
      [⟨"aa".toList, 0, 10, []⟩, ⟨"bb".toList, 50, 10, []⟩]
      ⟨"aa".toList, 0, 10, []⟩ (by decide) (by decide) (by decide)⟩

end InventoryOCR
